import Mathlib

/-
Verification of the reference-tracking and forced-update layer of the
kapp-controller App reconciler.

The snippet under verification contains the caller, `AppsReconciler`
(`Reconcile` and `UpdateAppRefs`), while the `pkg/reftracker` package it
calls (`AppRefTracker`, `AppUpdateStatus`) is not part of the snippet; those
components are modelled from the specification, as marked on each
definition.  Maps are embedded as an explicit entry-domain `Finset`
together with a value function; an absent entry reads as the empty set.
-/

/-- RefKey identifies a secondary resource: a (kind, namespace, name)
tuple, an opaque comparable value used as a map key. -/
structure RefKey where
  kind : String
  nspace : String
  name : String
deriving DecidableEq

/-- AppKey identifies an owner App: a (name, namespace) pair. -/
structure AppKey where
  name : String
  nspace : String
deriving DecidableEq

/-- Constructs an AppKey from a name and namespace, as
`reftracker.NewAppKey(existingApp.Name, existingApp.Namespace)` does. -/
def NewAppKey (name nspace : String) : AppKey :=
  ⟨name, nspace⟩

/-- Modelled from the spec: the RefIndex / AppRefTracker of
`pkg/reftracker` (its implementation is not in the snippet).  The
bidirectional map is kept as two directions, each an entry domain plus a
value map; an entry absent from the domain reads as the empty set. -/
@[ext]
structure AppRefTracker where
  refsToAppsDom : Finset RefKey
  refsToApps : RefKey → Finset AppKey
  appsToRefsDom : Finset AppKey
  appsToRefs : AppKey → Finset RefKey

/-- The empty tracker: no entries in either direction. -/
def AppRefTracker.empty : AppRefTracker :=
  ⟨∅, fun _ => ∅, ∅, fun _ => ∅⟩

/-- Modelled from the spec: `OwnersReferencing(ref)` returns the current
set of owners for a reference key, or the empty set if none. -/
def AppRefTracker.OwnersReferencing (t : AppRefTracker) (r : RefKey) : Finset AppKey :=
  if r ∈ t.refsToAppsDom then t.refsToApps r else ∅

/-- The owner's currently tracked reference set, or the empty set if the
owner has no entry. -/
def AppRefTracker.ownerRefs (t : AppRefTracker) (o : AppKey) : Finset RefKey :=
  if o ∈ t.appsToRefsDom then t.appsToRefs o else ∅

/-- Modelled from the spec: `ReconcileRefs(newRefs, owner)` replaces the
owner's tracked reference set with `newRefs`.  It computes
`toAdd = newRefs − oldRefs` and `toRemove = oldRefs − newRefs`, inserts
each `toAdd` pair into both directions, deletes each `toRemove` pair from
both directions, deletes a RefKey entry whose owner set becomes empty,
and removes the owner's entry when `newRefs` is empty. -/
def AppRefTracker.ReconcileRefs (t : AppRefTracker) (newRefs : Finset RefKey) (o : AppKey) :
    AppRefTracker :=
  let oldRefs := t.ownerRefs o
  let toAdd := newRefs \ oldRefs
  let toRemove := oldRefs \ newRefs
  { refsToAppsDom :=
      (t.refsToAppsDom ∪ toAdd) \
        (toRemove.filter fun r => (t.OwnersReferencing r).erase o = ∅)
    refsToApps := fun r =>
      if r ∈ toAdd then insert o (t.OwnersReferencing r)
      else if r ∈ toRemove then (t.OwnersReferencing r).erase o
      else t.OwnersReferencing r
    appsToRefsDom :=
      if newRefs = ∅ then t.appsToRefsDom.erase o else insert o t.appsToRefsDom
    appsToRefs := fun a => if a = o then newRefs else t.ownerRefs a }

/-- Modelled from the spec: `RemoveAppFromAllRefs(owner)` deletes the
(ref, owner) pair from the reverse direction for every ref the owner
currently tracks, deletes RefKey entries whose owner set becomes empty,
and removes the owner's tracked-reference-set entry. -/
def AppRefTracker.RemoveAppFromAllRefs (t : AppRefTracker) (o : AppKey) : AppRefTracker :=
  let oldRefs := t.ownerRefs o
  { refsToAppsDom :=
      t.refsToAppsDom \ (oldRefs.filter fun r => (t.OwnersReferencing r).erase o = ∅)
    refsToApps := fun r =>
      if r ∈ oldRefs then (t.OwnersReferencing r).erase o else t.OwnersReferencing r
    appsToRefsDom := t.appsToRefsDom.erase o
    appsToRefs := fun a => if a = o then ∅ else t.ownerRefs a }

/-- A call into the tracker: one of its two mutating operations. -/
inductive TrackerOp where
  | reconcile (newRefs : Finset RefKey) (o : AppKey)
  | removeAll (o : AppKey)
deriving DecidableEq

/-- Applies one tracker operation to a tracker state. -/
def applyOp (t : AppRefTracker) : TrackerOp → AppRefTracker
  | .reconcile newRefs o => t.ReconcileRefs newRefs o
  | .removeAll o => t.RemoveAppFromAllRefs o

/-- Runs a sequence of tracker operations from the empty tracker. -/
def runOps (ops : List TrackerOp) : AppRefTracker :=
  ops.foldl applyOp AppRefTracker.empty

/-- The spec's description of the owner's declared reference set after one
call: a `ReconcileRefs` for this owner wholesale-replaces the set, a
`RemoveAppFromAllRefs` for this owner empties it, calls for other owners
leave it alone. -/
def specStep (o : AppKey) (s : Finset RefKey) : TrackerOp → Finset RefKey
  | .reconcile newRefs o' => if o' = o then newRefs else s
  | .removeAll o' => if o' = o then ∅ else s

/-- Written from the spec sentence for the bidirectional-consistency
property: `r` is declared by `o` after `ops` iff the most recent
`ReconcileRefs` call for `o` included `r` in its `newRefs` and no
subsequent call for `o` excluded it. -/
def declaredRefs (ops : List TrackerOp) (o : AppKey) : Finset RefKey :=
  ops.foldl (specStep o) ∅

/-- Modelled from the spec: the AppUpdateStatus update-latch store of
`pkg/reftracker` (its implementation is not in the snippet).  A per-owner
pending flag, plus a per-owner generation counter that records how many
signals have arrived; the counter realises the spec's mandated guard that
a clear applies only if no fresh signal raced in after the read that
triggered it. -/
@[ext]
structure AppUpdateStatus where
  pending : AppKey → Bool
  gen : AppKey → Nat

/-- The empty latch store: every latch absent/false. -/
def AppUpdateStatus.empty : AppUpdateStatus :=
  ⟨fun _ => false, fun _ => 0⟩

/-- Modelled from the spec: `MarkUpdated(owner)` sets the latch for the
owner to pending; redundant calls coalesce (the flag cannot become more
than pending), while the generation counter records that a fresh signal
arrived. -/
def AppUpdateStatus.MarkUpdated (s : AppUpdateStatus) (o : AppKey) : AppUpdateStatus :=
  { pending := fun k => if k = o then true else s.pending k
    gen := fun k => if k = o then s.gen k + 1 else s.gen k }

/-- Modelled from the spec: `IsUpdateNeeded(owner)` returns whether a
pending signal exists for the owner and leaves the store unchanged (the
check by itself does not clear the latch); it also exposes the generation
observed at the read, which the clear counterpart is guarded by. -/
def AppUpdateStatus.IsUpdateNeeded (s : AppUpdateStatus) (o : AppKey) :
    Bool × Nat × AppUpdateStatus :=
  (s.pending o, s.gen o, s)

/-- Modelled from the spec: the clear counterpart (`Clear`/`MarkConsumed`)
transitions pending to not-pending only if no new `MarkUpdated` occurred
after the read that triggered the clear — here, only if the owner's
generation still equals the generation `g` captured at that read —
otherwise it leaves the latch pending. -/
def AppUpdateStatus.MarkConsumed (s : AppUpdateStatus) (o : AppKey) (g : Nat) :
    AppUpdateStatus :=
  if s.gen o = g then
    { pending := fun k => if k = o then false else s.pending k
      gen := s.gen }
  else s

/-- The force-update consultation of `AppsReconciler.Reconcile`: check
`IsUpdateNeeded` for the App's key and, on a positive result, apply the
clear counterpart (the code's consume call) with the generation captured
at that read, setting `force`; on a negative result leave the store alone
and do not force. -/
def reconcileForceStep (s : AppUpdateStatus) (o : AppKey) : AppUpdateStatus × Bool :=
  let check := s.IsUpdateNeeded o
  if check.1 then (check.2.2.MarkConsumed o check.2.1, true) else (check.2.2, false)

/-- The fields of an App that `AppsReconciler.UpdateAppRefs` reads: its
name, its namespace, and its deletion timestamp (`nil` when the App is
not being deleted). -/
structure App where
  name : String
  nspace : String
  deletionTimestamp : Option Nat

/-- `AppsReconciler.UpdateAppRefs`: builds the App's key; if the App is
being deleted (non-nil deletion timestamp) removes the App from all its
associated references, otherwise reconciles the App's reference set.
Alongside the new tracker state it returns the list of tracker calls the
function made, mirroring its control flow. -/
def UpdateAppRefs (refKeys : Finset RefKey) (app : App) (t : AppRefTracker) :
    AppRefTracker × List TrackerOp :=
  let appKey := NewAppKey app.name app.nspace
  if app.deletionTimestamp.isSome then
    (t.RemoveAppFromAllRefs appKey, [TrackerOp.removeAll appKey])
  else
    (t.ReconcileRefs refKeys appKey, [TrackerOp.reconcile refKeys appKey])

/-- Bidirectional consistency: a (ref, owner) pair is present in the
referenced-by direction iff it is present in the owner-references
direction. -/
def Consistent (t : AppRefTracker) : Prop :=
  ∀ (r : RefKey) (o : AppKey), o ∈ t.OwnersReferencing r ↔ r ∈ t.ownerRefs o

/-- No empty residue: every stored entry, in either direction, holds a
nonempty set. -/
def NoEmptyResidue (t : AppRefTracker) : Prop :=
  (∀ r ∈ t.refsToAppsDom, t.refsToApps r ≠ ∅) ∧
  (∀ a ∈ t.appsToRefsDom, t.appsToRefs a ≠ ∅)

/-- Well-formed storage: a key absent from a direction's entry domain has
the empty set as its value. -/
def WellFormed (t : AppRefTracker) : Prop :=
  (∀ r, r ∉ t.refsToAppsDom → t.refsToApps r = ∅) ∧
  (∀ a, a ∉ t.appsToRefsDom → t.appsToRefs a = ∅)

@[simp]
theorem AppRefTracker.OwnersReferencing_empty (r : RefKey) :
    AppRefTracker.empty.OwnersReferencing r = ∅ := by
  simp [AppRefTracker.OwnersReferencing, AppRefTracker.empty]

@[simp]
theorem AppRefTracker.ownerRefs_empty (o : AppKey) :
    AppRefTracker.empty.ownerRefs o = ∅ := by
  simp [AppRefTracker.ownerRefs, AppRefTracker.empty]

theorem AppRefTracker.reconcile_refsToAppsDom (t : AppRefTracker) (newRefs : Finset RefKey)
    (o : AppKey) :
    (t.ReconcileRefs newRefs o).refsToAppsDom =
      (t.refsToAppsDom ∪ (newRefs \ t.ownerRefs o)) \
        ((t.ownerRefs o \ newRefs).filter fun r => (t.OwnersReferencing r).erase o = ∅) :=
  rfl

theorem AppRefTracker.reconcile_refsToApps (t : AppRefTracker) (newRefs : Finset RefKey)
    (o : AppKey) (r : RefKey) :
    (t.ReconcileRefs newRefs o).refsToApps r =
      if r ∈ newRefs \ t.ownerRefs o then insert o (t.OwnersReferencing r)
      else if r ∈ t.ownerRefs o \ newRefs then (t.OwnersReferencing r).erase o
      else t.OwnersReferencing r :=
  rfl

theorem AppRefTracker.reconcile_appsToRefsDom (t : AppRefTracker) (newRefs : Finset RefKey)
    (o : AppKey) :
    (t.ReconcileRefs newRefs o).appsToRefsDom =
      if newRefs = ∅ then t.appsToRefsDom.erase o else insert o t.appsToRefsDom :=
  rfl

theorem AppRefTracker.reconcile_appsToRefs (t : AppRefTracker) (newRefs : Finset RefKey)
    (o a : AppKey) :
    (t.ReconcileRefs newRefs o).appsToRefs a = if a = o then newRefs else t.ownerRefs a :=
  rfl

theorem AppRefTracker.ownerRefs_ReconcileRefs (t : AppRefTracker) (newRefs : Finset RefKey)
    (o a : AppKey) :
    (t.ReconcileRefs newRefs o).ownerRefs a = if a = o then newRefs else t.ownerRefs a := by
  by_cases hao : a = o
  · subst hao
    by_cases hne : newRefs = ∅
    · subst hne
      simp [AppRefTracker.ownerRefs, AppRefTracker.reconcile_appsToRefsDom,
        AppRefTracker.reconcile_appsToRefs]
    · simp [AppRefTracker.ownerRefs, AppRefTracker.reconcile_appsToRefsDom,
        AppRefTracker.reconcile_appsToRefs, hne]
  · by_cases hne : newRefs = ∅ <;> by_cases hdom : a ∈ t.appsToRefsDom <;>
      simp [AppRefTracker.ownerRefs, AppRefTracker.reconcile_appsToRefsDom,
        AppRefTracker.reconcile_appsToRefs, hne, hao, hdom, Finset.mem_erase,
        Finset.mem_insert]

theorem AppRefTracker.OwnersReferencing_ReconcileRefs (t : AppRefTracker)
    (newRefs : Finset RefKey) (o : AppKey) (r : RefKey) :
    (t.ReconcileRefs newRefs o).OwnersReferencing r =
      if r ∈ newRefs ∧ r ∉ t.ownerRefs o then insert o (t.OwnersReferencing r)
      else if r ∈ t.ownerRefs o ∧ r ∉ newRefs then (t.OwnersReferencing r).erase o
      else t.OwnersReferencing r := by
  by_cases hn : r ∈ newRefs <;> by_cases ho : r ∈ t.ownerRefs o
  · -- kept: in both the new and the old set, the entry is untouched
    by_cases hdom : r ∈ t.refsToAppsDom <;>
      simp [AppRefTracker.OwnersReferencing, AppRefTracker.reconcile_refsToAppsDom,
        AppRefTracker.reconcile_refsToApps, hn, ho, hdom, Finset.mem_sdiff,
        Finset.mem_union, Finset.mem_filter]
  · -- added: the pair is inserted and the entry exists afterwards
    simp [AppRefTracker.OwnersReferencing, AppRefTracker.reconcile_refsToAppsDom,
      AppRefTracker.reconcile_refsToApps, hn, ho, Finset.mem_sdiff, Finset.mem_union,
      Finset.mem_filter]
  · -- removed: the pair is erased; the entry disappears iff it became empty
    by_cases hdom : r ∈ t.refsToAppsDom
    · by_cases he : (t.refsToApps r).erase o = ∅ <;>
        simp [AppRefTracker.OwnersReferencing, AppRefTracker.reconcile_refsToAppsDom,
          AppRefTracker.reconcile_refsToApps, hn, ho, hdom, he, Finset.mem_sdiff,
          Finset.mem_union, Finset.mem_filter]
    · simp [AppRefTracker.OwnersReferencing, AppRefTracker.reconcile_refsToAppsDom,
        AppRefTracker.reconcile_refsToApps, hn, ho, hdom, Finset.mem_sdiff,
        Finset.mem_union, Finset.mem_filter, Finset.erase_empty]
  · -- untouched: in neither set, the entry is unchanged
    by_cases hdom : r ∈ t.refsToAppsDom <;>
      simp [AppRefTracker.OwnersReferencing, AppRefTracker.reconcile_refsToAppsDom,
        AppRefTracker.reconcile_refsToApps, hn, ho, hdom, Finset.mem_sdiff,
        Finset.mem_union, Finset.mem_filter]

theorem AppRefTracker.removeAll_eq_reconcile_empty (t : AppRefTracker) (o : AppKey) :
    t.RemoveAppFromAllRefs o = t.ReconcileRefs ∅ o := by
  unfold AppRefTracker.RemoveAppFromAllRefs AppRefTracker.ReconcileRefs
  simp

theorem AppRefTracker.ownerRefs_RemoveAppFromAllRefs (t : AppRefTracker) (o a : AppKey) :
    (t.RemoveAppFromAllRefs o).ownerRefs a = if a = o then ∅ else t.ownerRefs a := by
  rw [AppRefTracker.removeAll_eq_reconcile_empty, AppRefTracker.ownerRefs_ReconcileRefs]

theorem AppRefTracker.OwnersReferencing_RemoveAppFromAllRefs (t : AppRefTracker) (o : AppKey)
    (r : RefKey) :
    (t.RemoveAppFromAllRefs o).OwnersReferencing r =
      if r ∈ t.ownerRefs o then (t.OwnersReferencing r).erase o
      else t.OwnersReferencing r := by
  rw [AppRefTracker.removeAll_eq_reconcile_empty, AppRefTracker.OwnersReferencing_ReconcileRefs]
  simp

theorem ownerRefs_applyOp (t : AppRefTracker) (op : TrackerOp) (o : AppKey) :
    (applyOp t op).ownerRefs o = specStep o (t.ownerRefs o) op := by
  cases op with
  | reconcile newRefs o' =>
    by_cases h : o = o'
    · subst h
      simp [applyOp, specStep, AppRefTracker.ownerRefs_ReconcileRefs]
    · simp [applyOp, specStep, AppRefTracker.ownerRefs_ReconcileRefs, h, Ne.symm h]
  | removeAll o' =>
    by_cases h : o = o'
    · subst h
      simp [applyOp, specStep, AppRefTracker.ownerRefs_RemoveAppFromAllRefs]
    · simp [applyOp, specStep, AppRefTracker.ownerRefs_RemoveAppFromAllRefs, h, Ne.symm h]

theorem ownerRefs_foldl (ops : List TrackerOp) (t : AppRefTracker) (o : AppKey) :
    (ops.foldl applyOp t).ownerRefs o = ops.foldl (specStep o) (t.ownerRefs o) := by
  induction ops generalizing t with
  | nil => rfl
  | cons op rest ih => simp [List.foldl_cons, ih, ownerRefs_applyOp]

theorem ownerRefs_runOps (ops : List TrackerOp) (o : AppKey) :
    (runOps ops).ownerRefs o = declaredRefs ops o := by
  have h := ownerRefs_foldl ops AppRefTracker.empty o
  simpa [runOps, declaredRefs] using h

theorem consistent_empty : Consistent AppRefTracker.empty := by
  intro r o
  simp

theorem consistent_reconcile (t : AppRefTracker) (newRefs : Finset RefKey) (o : AppKey)
    (h : Consistent t) : Consistent (t.ReconcileRefs newRefs o) := by
  intro r o'
  rw [AppRefTracker.OwnersReferencing_ReconcileRefs, AppRefTracker.ownerRefs_ReconcileRefs]
  by_cases hn : r ∈ newRefs <;> by_cases ho : r ∈ t.ownerRefs o <;>
    by_cases hoo : o' = o <;>
      simp [hn, ho, hoo, Finset.mem_insert, Finset.mem_erase, h r o', h r o]

theorem consistent_removeAll (t : AppRefTracker) (o : AppKey) (h : Consistent t) :
    Consistent (t.RemoveAppFromAllRefs o) := by
  rw [AppRefTracker.removeAll_eq_reconcile_empty]
  exact consistent_reconcile t ∅ o h

theorem consistent_applyOp (t : AppRefTracker) (op : TrackerOp) (h : Consistent t) :
    Consistent (applyOp t op) := by
  cases op with
  | reconcile newRefs o => exact consistent_reconcile t newRefs o h
  | removeAll o => exact consistent_removeAll t o h

theorem consistent_runOps (ops : List TrackerOp) : Consistent (runOps ops) := by
  have key : ∀ (l : List TrackerOp) (t : AppRefTracker), Consistent t →
      Consistent (l.foldl applyOp t) := by
    intro l
    induction l with
    | nil => intro t ht; exact ht
    | cons op rest ih =>
      intro t ht
      exact ih (applyOp t op) (consistent_applyOp t op ht)
  exact key ops AppRefTracker.empty consistent_empty

theorem AppRefTracker.removeAll_refsToAppsDom (t : AppRefTracker) (o : AppKey) :
    (t.RemoveAppFromAllRefs o).refsToAppsDom =
      t.refsToAppsDom \
        ((t.ownerRefs o).filter fun r => (t.OwnersReferencing r).erase o = ∅) :=
  rfl

theorem AppRefTracker.removeAll_refsToApps (t : AppRefTracker) (o : AppKey) (r : RefKey) :
    (t.RemoveAppFromAllRefs o).refsToApps r =
      if r ∈ t.ownerRefs o then (t.OwnersReferencing r).erase o
      else t.OwnersReferencing r :=
  rfl

theorem AppRefTracker.removeAll_appsToRefsDom (t : AppRefTracker) (o : AppKey) :
    (t.RemoveAppFromAllRefs o).appsToRefsDom = t.appsToRefsDom.erase o :=
  rfl

theorem AppRefTracker.removeAll_appsToRefs (t : AppRefTracker) (o a : AppKey) :
    (t.RemoveAppFromAllRefs o).appsToRefs a = if a = o then ∅ else t.ownerRefs a :=
  rfl

theorem noEmptyResidue_empty : NoEmptyResidue AppRefTracker.empty := by
  constructor <;> intro x hx <;> simp [AppRefTracker.empty] at hx

theorem noEmptyResidue_reconcile (t : AppRefTracker) (newRefs : Finset RefKey) (o : AppKey)
    (h : NoEmptyResidue t) : NoEmptyResidue (t.ReconcileRefs newRefs o) := by
  obtain ⟨h1, h2⟩ := h
  constructor
  · intro r hr
    rw [AppRefTracker.reconcile_refsToAppsDom] at hr
    rw [AppRefTracker.reconcile_refsToApps]
    simp only [Finset.mem_sdiff, Finset.mem_union, Finset.mem_filter] at hr
    by_cases hn : r ∈ newRefs <;> by_cases ho : r ∈ t.ownerRefs o
    · -- kept: the entry is untouched and was already present
      have hdom : r ∈ t.refsToAppsDom := by tauto
      simp [hn, ho, Finset.mem_sdiff, AppRefTracker.OwnersReferencing, hdom]
      exact h1 r hdom
    · -- added: the new value contains the inserted owner
      simp [hn, ho, Finset.mem_sdiff]
    · -- removed: the entry survived the filter, so the erased set is nonempty
      simp only [Finset.mem_sdiff, hn, ho, not_false_iff, and_true, if_true, true_and,
        if_neg (by simp [hn] : ¬(r ∈ newRefs ∧ r ∉ t.ownerRefs o))]
      intro hc
      exact hr.2 ⟨⟨ho, hn⟩, hc⟩
    · -- untouched: the entry is unchanged and was already present
      have hdom : r ∈ t.refsToAppsDom := by tauto
      simp [hn, ho, Finset.mem_sdiff, AppRefTracker.OwnersReferencing, hdom]
      exact h1 r hdom
  · intro a ha
    rw [AppRefTracker.reconcile_appsToRefsDom] at ha
    rw [AppRefTracker.reconcile_appsToRefs]
    by_cases hne : newRefs = ∅
    · rw [if_pos hne] at ha
      obtain ⟨hao, hadom⟩ := Finset.mem_erase.mp ha
      simp [hao, AppRefTracker.ownerRefs, hadom]
      exact h2 a hadom
    · rw [if_neg hne] at ha
      by_cases hao : a = o
      · simp [hao, hne]
      · have hadom : a ∈ t.appsToRefsDom := by
          rcases Finset.mem_insert.mp ha with hcase | hcase
          · exact absurd hcase hao
          · exact hcase
        simp [hao, AppRefTracker.ownerRefs, hadom]
        exact h2 a hadom

theorem noEmptyResidue_removeAll (t : AppRefTracker) (o : AppKey) (h : NoEmptyResidue t) :
    NoEmptyResidue (t.RemoveAppFromAllRefs o) := by
  rw [AppRefTracker.removeAll_eq_reconcile_empty]
  exact noEmptyResidue_reconcile t ∅ o h

theorem noEmptyResidue_applyOp (t : AppRefTracker) (op : TrackerOp) (h : NoEmptyResidue t) :
    NoEmptyResidue (applyOp t op) := by
  cases op with
  | reconcile newRefs o => exact noEmptyResidue_reconcile t newRefs o h
  | removeAll o => exact noEmptyResidue_removeAll t o h

theorem noEmptyResidue_runOps (ops : List TrackerOp) : NoEmptyResidue (runOps ops) := by
  have key : ∀ (l : List TrackerOp) (t : AppRefTracker), NoEmptyResidue t →
      NoEmptyResidue (l.foldl applyOp t) := by
    intro l
    induction l with
    | nil => intro t ht; exact ht
    | cons op rest ih =>
      intro t ht
      exact ih (applyOp t op) (noEmptyResidue_applyOp t op ht)
  exact key ops AppRefTracker.empty noEmptyResidue_empty

theorem removeAll_unseen (t : AppRefTracker) (o : AppKey) (hwf : WellFormed t)
    (ho : o ∉ t.appsToRefsDom) : t.RemoveAppFromAllRefs o = t := by
  obtain ⟨hwf1, hwf2⟩ := hwf
  have hor : t.ownerRefs o = ∅ := by simp [AppRefTracker.ownerRefs, ho]
  apply AppRefTracker.ext
  · rw [AppRefTracker.removeAll_refsToAppsDom, hor]
    simp
  · funext r
    rw [AppRefTracker.removeAll_refsToApps, hor]
    by_cases hdom : r ∈ t.refsToAppsDom
    · simp [AppRefTracker.OwnersReferencing, hdom]
    · simp [AppRefTracker.OwnersReferencing, hdom, hwf1 r hdom]
  · rw [AppRefTracker.removeAll_appsToRefsDom]
    exact Finset.erase_eq_of_not_mem ho
  · funext a
    rw [AppRefTracker.removeAll_appsToRefs]
    by_cases hao : a = o
    · subst hao
      simp [hwf2 a ho]
    · by_cases hadom : a ∈ t.appsToRefsDom
      · simp [hao, AppRefTracker.ownerRefs, hadom]
      · simp [hao, AppRefTracker.ownerRefs, hadom, hwf2 a hadom]

theorem wellFormed_empty : WellFormed AppRefTracker.empty :=
  ⟨fun _ _ => rfl, fun _ _ => rfl⟩

/-- Claim C1: for every sequence of ReconcileRefs / RemoveAppFromAllRefs
calls, at the quiescent point after them, OwnersReferencing r contains o
iff the most recent ReconcileRefs call for o included r in its newRefs and
no later call for o excluded it (declaredRefs); and every pair present in
the owner-to-refs direction is present in the refs-to-owners direction and
vice versa. -/
theorem claim_C1_bidirectional_consistency (ops : List TrackerOp) (r : RefKey) (o : AppKey) :
    (o ∈ (runOps ops).OwnersReferencing r ↔ r ∈ declaredRefs ops o) ∧
    (o ∈ (runOps ops).OwnersReferencing r ↔ r ∈ (runOps ops).ownerRefs o) := by
  have hc := consistent_runOps ops r o
  have hd := ownerRefs_runOps ops o
  exact ⟨by rw [hc, hd], hc⟩

/-- Claim C3: ReconcileRefs applies exactly the toAdd / toRemove diff to
both directions — on a consistent tracker, after the call the
reconciled owner owns exactly newRefs and every other owner's membership
is unchanged — and the concrete two-call scenario yields
OwnersReferencing a = ∅, OwnersReferencing b = {o},
OwnersReferencing c = {o}. -/
theorem claim_C3_reconcile_diff :
    (∀ (t : AppRefTracker) (newRefs : Finset RefKey) (o o' : AppKey) (r : RefKey),
      Consistent t →
      (o' ∈ (t.ReconcileRefs newRefs o).OwnersReferencing r ↔
        (if o' = o then r ∈ newRefs else o' ∈ t.OwnersReferencing r))) ∧
    (∀ (a b c : RefKey) (o : AppKey), a ≠ b → b ≠ c → a ≠ c →
      ((AppRefTracker.empty.ReconcileRefs {a, b} o).ReconcileRefs {b, c} o).OwnersReferencing a
          = ∅ ∧
      ((AppRefTracker.empty.ReconcileRefs {a, b} o).ReconcileRefs {b, c} o).OwnersReferencing b
          = {o} ∧
      ((AppRefTracker.empty.ReconcileRefs {a, b} o).ReconcileRefs {b, c} o).OwnersReferencing c
          = {o}) := by
  constructor
  · intro t newRefs o o' r h
    rw [consistent_reconcile t newRefs o h r o', AppRefTracker.ownerRefs_ReconcileRefs]
    by_cases hoo : o' = o
    · simp [hoo]
    · simp [hoo, h r o']
  · intro a b c o hab hbc hac
    refine ⟨?_, ?_, ?_⟩ <;>
      simp [AppRefTracker.OwnersReferencing_ReconcileRefs,
        AppRefTracker.ownerRefs_ReconcileRefs, hab, hbc, hac, Ne.symm hab, Ne.symm hbc,
        Ne.symm hac, Finset.mem_insert, Finset.mem_singleton]

/-- Claim C3 witness: the general part applied to the empty tracker and the
concrete part applied to three distinct reference keys. -/
theorem claim_C3_reconcile_diff_witness :
    ((NewAppKey "app" "n") ∈
        (AppRefTracker.empty.ReconcileRefs {RefKey.mk "s" "n" "x"} (NewAppKey "app" "n")).OwnersReferencing
          (RefKey.mk "s" "n" "x") ↔
      (if (NewAppKey "app" "n") = (NewAppKey "app" "n") then
        (RefKey.mk "s" "n" "x") ∈ ({RefKey.mk "s" "n" "x"} : Finset RefKey)
      else (NewAppKey "app" "n") ∈ AppRefTracker.empty.OwnersReferencing (RefKey.mk "s" "n" "x"))) ∧
    ((AppRefTracker.empty.ReconcileRefs {RefKey.mk "s" "n" "a", RefKey.mk "s" "n" "b"}
          (NewAppKey "app" "n")).ReconcileRefs
        {RefKey.mk "s" "n" "b", RefKey.mk "s" "n" "c"} (NewAppKey "app" "n")).OwnersReferencing
      (RefKey.mk "s" "n" "a") = ∅ :=
  ⟨claim_C3_reconcile_diff.1 AppRefTracker.empty {RefKey.mk "s" "n" "x"} (NewAppKey "app" "n")
      (NewAppKey "app" "n") (RefKey.mk "s" "n" "x") (by intro r o; simp),
    (claim_C3_reconcile_diff.2 (RefKey.mk "s" "n" "a") (RefKey.mk "s" "n" "b")
      (RefKey.mk "s" "n" "c") (NewAppKey "app" "n") (by decide) (by decide) (by decide)).1⟩

/-- Claim C4: for every owner and every tracker state,
RemoveAppFromAllRefs equals ReconcileRefs with the empty set (hence is
observably equivalent to it), removes the owner's tracked-reference-set
entry, and in the concrete scenario where the owner had refs {a, b} it
leaves both owner sets empty. -/
theorem claim_C4_removeAll_equiv_reconcile_empty :
    (∀ (t : AppRefTracker) (o : AppKey),
      t.RemoveAppFromAllRefs o = t.ReconcileRefs ∅ o ∧
      o ∉ (t.RemoveAppFromAllRefs o).appsToRefsDom) ∧
    (∀ (a b : RefKey) (o : AppKey),
      ((AppRefTracker.empty.ReconcileRefs {a, b} o).RemoveAppFromAllRefs o).OwnersReferencing a
          = ∅ ∧
      ((AppRefTracker.empty.ReconcileRefs {a, b} o).RemoveAppFromAllRefs o).OwnersReferencing b
          = ∅) := by
  constructor
  · intro t o
    refine ⟨AppRefTracker.removeAll_eq_reconcile_empty t o, ?_⟩
    rw [AppRefTracker.removeAll_appsToRefsDom]
    exact Finset.not_mem_erase o t.appsToRefsDom
  · intro a b o
    constructor <;>
      simp [AppRefTracker.OwnersReferencing_RemoveAppFromAllRefs,
        AppRefTracker.OwnersReferencing_ReconcileRefs, AppRefTracker.ownerRefs_ReconcileRefs,
        Finset.mem_insert, Finset.mem_singleton]

/-- Claim C5: after any sequence of tracker operations, internal storage
holds no RefKey entry with an empty owner set and no owner entry with an
empty reference set. -/
theorem claim_C5_no_empty_residue (ops : List TrackerOp) :
    (∀ r ∈ (runOps ops).refsToAppsDom, (runOps ops).refsToApps r ≠ ∅) ∧
    (∀ a ∈ (runOps ops).appsToRefsDom, (runOps ops).appsToRefs a ≠ ∅) :=
  noEmptyResidue_runOps ops

/-- Claim C5 witness: a concrete run with one live entry in each
direction, whose stored sets are nonempty. -/
theorem claim_C5_no_empty_residue_witness :
    (runOps [TrackerOp.reconcile {RefKey.mk "s" "n" "r"} (NewAppKey "a" "n")]).refsToApps
      (RefKey.mk "s" "n" "r") ≠ ∅ ∧
    (runOps [TrackerOp.reconcile {RefKey.mk "s" "n" "r"} (NewAppKey "a" "n")]).appsToRefs
      (NewAppKey "a" "n") ≠ ∅ :=
  ⟨(claim_C5_no_empty_residue [TrackerOp.reconcile {RefKey.mk "s" "n" "r"} (NewAppKey "a" "n")]).1
      (RefKey.mk "s" "n" "r") (by decide),
    (claim_C5_no_empty_residue [TrackerOp.reconcile {RefKey.mk "s" "n" "r"} (NewAppKey "a" "n")]).2
      (NewAppKey "a" "n") (by decide)⟩

/-- Claim C6: calling ReconcileRefs twice in a row with the same set and
owner yields the same observable index state, as seen through
OwnersReferencing for every RefKey, as calling it once. -/
theorem claim_C6_reconcile_idempotent (t : AppRefTracker) (S : Finset RefKey) (o : AppKey)
    (r : RefKey) :
    ((t.ReconcileRefs S o).ReconcileRefs S o).OwnersReferencing r =
      (t.ReconcileRefs S o).OwnersReferencing r := by
  rw [AppRefTracker.OwnersReferencing_ReconcileRefs, AppRefTracker.ownerRefs_ReconcileRefs]
  simp

/-- Claim C9: the operations are total no-ops on unknown keys: on a
well-formed tracker, removing a never-seen owner leaves the tracker
unchanged, reconciling an empty set for a never-seen owner leaves it
unchanged, and OwnersReferencing of an unknown RefKey is the empty set. -/
theorem claim_C9_total_unknown_keys (t : AppRefTracker) (o : AppKey) (r : RefKey)
    (hwf : WellFormed t) (ho : o ∉ t.appsToRefsDom) (hr : r ∉ t.refsToAppsDom) :
    t.RemoveAppFromAllRefs o = t ∧ t.ReconcileRefs ∅ o = t ∧
    t.OwnersReferencing r = ∅ := by
  have h1 := removeAll_unseen t o hwf ho
  refine ⟨h1, ?_, ?_⟩
  · rw [← AppRefTracker.removeAll_eq_reconcile_empty]
    exact h1
  · simp [AppRefTracker.OwnersReferencing, hr]

/-- Claim C9 witness: the no-ops on the empty tracker with keys it has
never seen. -/
theorem claim_C9_total_unknown_keys_witness :
    AppRefTracker.empty.RemoveAppFromAllRefs (NewAppKey "a" "n") = AppRefTracker.empty ∧
    AppRefTracker.empty.ReconcileRefs ∅ (NewAppKey "a" "n") = AppRefTracker.empty ∧
    AppRefTracker.empty.OwnersReferencing (RefKey.mk "s" "n" "r") = ∅ :=
  claim_C9_total_unknown_keys AppRefTracker.empty (NewAppKey "a" "n") (RefKey.mk "s" "n" "r")
    ⟨fun _ _ => rfl, fun _ _ => rfl⟩ (by decide) (by decide)

/-- Claim C2: after MarkUpdated, a consume that observed true and captured
the generation, interleaved with a second MarkUpdated before its clear,
leaves the latch pending after the clear: the clear's generation guard
fails, so the next IsUpdateNeeded still returns true. -/
theorem claim_C2_lost_update_prevention (s : AppUpdateStatus) (o : AppKey) :
    (((s.MarkUpdated o).IsUpdateNeeded o).1 = true) ∧
    ((((s.MarkUpdated o).MarkUpdated o).MarkConsumed o
        ((s.MarkUpdated o).IsUpdateNeeded o).2.1).IsUpdateNeeded o).1 = true := by
  constructor
  · simp [AppUpdateStatus.IsUpdateNeeded, AppUpdateStatus.MarkUpdated]
  · have hne : ((s.MarkUpdated o).MarkUpdated o).gen o ≠
        ((s.MarkUpdated o).IsUpdateNeeded o).2.1 := by
      simp [AppUpdateStatus.MarkUpdated, AppUpdateStatus.IsUpdateNeeded]
    simp [AppUpdateStatus.MarkConsumed, hne, AppUpdateStatus.IsUpdateNeeded,
      AppUpdateStatus.MarkUpdated]

/-- Claim C7: IsUpdateNeeded returns true exactly when the latch is
pending and does not change the store; the reconcile path's step forces
exactly when the latch was pending, consumes the latch (it is no longer
pending afterwards), and touches no other owner's latch. -/
theorem claim_C7_check_then_consume (s : AppUpdateStatus) (o : AppKey) :
    ((s.IsUpdateNeeded o).1 = s.pending o) ∧
    ((s.IsUpdateNeeded o).2.2 = s) ∧
    ((reconcileForceStep s o).2 = s.pending o) ∧
    (((reconcileForceStep s o).1).pending o = false) ∧
    (∀ k, k ≠ o → ((reconcileForceStep s o).1).pending k = s.pending k) := by
  refine ⟨rfl, rfl, ?_, ?_, ?_⟩
  · cases hp : s.pending o <;>
      simp [reconcileForceStep, AppUpdateStatus.IsUpdateNeeded, hp]
  · cases hp : s.pending o <;>
      simp [reconcileForceStep, AppUpdateStatus.IsUpdateNeeded, AppUpdateStatus.MarkConsumed, hp]
  · intro k hk
    cases hp : s.pending o <;>
      simp [reconcileForceStep, AppUpdateStatus.IsUpdateNeeded, AppUpdateStatus.MarkConsumed,
        hp, hk]

/-- Claim C7 witness: the check-then-consume step on a pending latch
forces, and leaves a different owner's latch untouched. -/
theorem claim_C7_check_then_consume_witness :
    ((NewAppKey "b" "n") ≠ (NewAppKey "a" "n")) ∧
    ((reconcileForceStep (AppUpdateStatus.empty.MarkUpdated (NewAppKey "a" "n"))
        (NewAppKey "a" "n")).1).pending (NewAppKey "b" "n") =
      (AppUpdateStatus.empty.MarkUpdated (NewAppKey "a" "n")).pending (NewAppKey "b" "n") :=
  ⟨by decide,
    (claim_C7_check_then_consume (AppUpdateStatus.empty.MarkUpdated (NewAppKey "a" "n"))
      (NewAppKey "a" "n")).2.2.2.2 (NewAppKey "b" "n") (by decide)⟩

/-- Claim C8: MarkUpdated on an already-pending latch is a no-op on the
pending flags, so repeated MarkUpdated calls coalesce: two MarkUpdated
calls followed by one consume force once and leave the latch cleared. -/
theorem claim_C8_mark_updated_coalesces (s : AppUpdateStatus) (o : AppKey) :
    ((s.MarkUpdated o).pending o = true) ∧
    (s.pending o = true → (s.MarkUpdated o).pending = s.pending) ∧
    ((reconcileForceStep ((s.MarkUpdated o).MarkUpdated o) o).2 = true) ∧
    (((reconcileForceStep ((s.MarkUpdated o).MarkUpdated o) o).1).pending o = false) := by
  refine ⟨by simp [AppUpdateStatus.MarkUpdated], ?_, ?_, ?_⟩
  · intro h
    funext k
    by_cases hk : k = o
    · subst hk
      simp [AppUpdateStatus.MarkUpdated, h]
    · simp [AppUpdateStatus.MarkUpdated, hk]
  · simp [reconcileForceStep, AppUpdateStatus.IsUpdateNeeded, AppUpdateStatus.MarkUpdated]
  · simp [reconcileForceStep, AppUpdateStatus.IsUpdateNeeded, AppUpdateStatus.MarkConsumed,
      AppUpdateStatus.MarkUpdated]

/-- Claim C8 witness: a second MarkUpdated on a latch that is already
pending does not change the pending flags. -/
theorem claim_C8_mark_updated_coalesces_witness :
    ((AppUpdateStatus.empty.MarkUpdated (NewAppKey "a" "n")).pending (NewAppKey "a" "n")
        = true) ∧
    ((AppUpdateStatus.empty.MarkUpdated (NewAppKey "a" "n")).MarkUpdated
        (NewAppKey "a" "n")).pending =
      (AppUpdateStatus.empty.MarkUpdated (NewAppKey "a" "n")).pending :=
  ⟨by decide,
    (claim_C8_mark_updated_coalesces (AppUpdateStatus.empty.MarkUpdated (NewAppKey "a" "n"))
      (NewAppKey "a" "n")).2.1 (by decide)⟩

/-- Claim C10: UpdateAppRefs invokes exactly RemoveAppFromAllRefs for the
App's key when the App carries a deletion timestamp, and exactly
ReconcileRefs with the supplied reference set when it does not; the
other operation is not invoked. -/
theorem claim_C10_update_app_refs_dispatch (refKeys : Finset RefKey) (app : App)
    (t : AppRefTracker) :
    (app.deletionTimestamp.isSome = true →
      (UpdateAppRefs refKeys app t).2 = [TrackerOp.removeAll (NewAppKey app.name app.nspace)] ∧
      (UpdateAppRefs refKeys app t).1 = t.RemoveAppFromAllRefs (NewAppKey app.name app.nspace) ∧
      ∀ (S : Finset RefKey) (k : AppKey),
        TrackerOp.reconcile S k ∉ (UpdateAppRefs refKeys app t).2) ∧
    (app.deletionTimestamp = none →
      (UpdateAppRefs refKeys app t).2 =
        [TrackerOp.reconcile refKeys (NewAppKey app.name app.nspace)] ∧
      (UpdateAppRefs refKeys app t).1 = t.ReconcileRefs refKeys (NewAppKey app.name app.nspace) ∧
      ∀ (k : AppKey), TrackerOp.removeAll k ∉ (UpdateAppRefs refKeys app t).2) := by
  constructor
  · intro h
    simp [UpdateAppRefs, h]
  · intro h
    simp [UpdateAppRefs, h]

/-- Claim C10 witness: an App marked for deletion dispatches to
RemoveAppFromAllRefs, an App not marked for deletion dispatches to
ReconcileRefs. -/
theorem claim_C10_update_app_refs_dispatch_witness :
    ((App.mk "a" "n" (some 1)).deletionTimestamp.isSome = true ∧
      (UpdateAppRefs ∅ (App.mk "a" "n" (some 1)) AppRefTracker.empty).2 =
        [TrackerOp.removeAll (NewAppKey "a" "n")]) ∧
    ((App.mk "a" "n" none).deletionTimestamp = none ∧
      (UpdateAppRefs {RefKey.mk "s" "n" "r"} (App.mk "a" "n" none) AppRefTracker.empty).2 =
        [TrackerOp.reconcile {RefKey.mk "s" "n" "r"} (NewAppKey "a" "n")]) :=
  ⟨⟨rfl, ((claim_C10_update_app_refs_dispatch ∅ (App.mk "a" "n" (some 1))
      AppRefTracker.empty).1 rfl).1⟩,
    ⟨rfl, ((claim_C10_update_app_refs_dispatch {RefKey.mk "s" "n" "r"} (App.mk "a" "n" none)
      AppRefTracker.empty).2 rfl).1⟩⟩
